import Mathlib

/-!
# Verification of the sunset-blame aggregation core

A shallow embedding of the blame-aggregation engine of `sunset-blame`
(variants `sunset-blame-hybrid.py` and `sunset-blame-pygit2.py`), together
with proofs of the specification's testable properties.

The embedding keeps the structure of the Python source:

* `Counter` models `collections.Counter` as an association list in
  insertion order (CPython dicts preserve insertion order, and
  `Counter.most_common(1)` returns the first-inserted key among those of
  maximal count, since `heapq.nlargest` is equivalent to a stable
  reverse sort).
* `aggregate` models the per-hunk folding loop of `walk`
  (`authors[author] += lines_in_hunk; dates[date] += lines_in_hunk`).
* `finalize` models the tail of `walk`: the `sum(dates.values()) == 0`
  skip, `most_common(1)[0][0]` for the modes, and
  `int(statistics.mean(dates.elements()))` for the emitted mean ordinal.
* `BlameLine`/`step`/`runLines` model the incremental-blame parser of
  `sunset-blame-hybrid.py` at the granularity of classified input lines.
* `Entry`/`walkList` model the recursive tree walk, with the external
  attribution source's outcome (blame records, or a nonzero exit of the
  subprocess) attached to each text blob.
-/

/-- `collections.Counter`, kept as an association list in insertion order:
`c.add k n` models `c[k] += n` (a missing key is appended at the end,
matching CPython dict insertion-order semantics). -/
abbrev Counter (α : Type) : Type := List (α × Nat)

namespace Counter

/-- `c[k] += n`: increment in place if present, else append at the end. -/
def add {α : Type} [DecidableEq α] : Counter α → α → Nat → Counter α
  | [], k, n => [(k, n)]
  | (k', m) :: rest, k, n =>
    if k' = k then (k', m + n) :: rest else (k', m) :: add rest k n

/-- `sum(c.values())`. -/
def total {α : Type} (c : Counter α) : Nat := (List.map (fun p => p.2) c).sum

/-- `c.most_common(1)[0]`: the first-inserted entry among those of maximal
count (`heapq.nlargest` is a stable reverse sort, so ties keep insertion
order; the fold below replaces the current best only on a strictly larger
count). Returns `none` on an empty counter (where CPython raises
`IndexError` on the `[0]` subscript). -/
def mostCommon1 {α : Type} : Counter α → Option (α × Nat)
  | [] => none
  | p :: ps => some (ps.foldl (fun best q => if best.2 < q.2 then q else best) p)

/-- `sum(k * n for k, n in c.items())`: numerator of
`statistics.mean(c.elements())` for a counter over naturals. -/
def weightedSum (c : Counter Nat) : Nat := (List.map (fun p => p.1 * p.2) c).sum

/-- `statistics.mean(c.elements())` as an exact rational:
(Σ key·count) / (Σ count). -/
def mean (c : Counter Nat) : ℚ := (weightedSum c : ℚ) / (total c : ℚ)

end Counter

/-- One contiguous blame hunk: `lines_in_hunk` lines last touched at age
(date ordinal) `age` by `author`.  This is the `AttributionRecord` of the
data model; in `sunset-blame-pygit2.py` it is a `pygit2` blame hunk, in
`sunset-blame-hybrid.py` one record of `git blame --incremental`. -/
structure AttributionRecord where
  line_count : Nat
  age : Nat
  author : String
deriving DecidableEq, Repr

/-- Σ `record.line_count` over the sequence. -/
def totalLineCount (seq : List AttributionRecord) : Nat :=
  (List.map (fun r => r.line_count) seq).sum

/-- The hunk-aggregation loop of `walk`: starting from
`authors, dates = collections.Counter(), collections.Counter()`, each
record folds its `line_count` into its author bucket and its age bucket
(`authors[author] += lines_in_hunk; dates[date] += lines_in_hunk`). -/
def aggStep (acc : Counter String × Counter Nat) (r : AttributionRecord) :
    Counter String × Counter Nat :=
  (acc.1.add r.author r.line_count, acc.2.add r.age r.line_count)

def aggregate (seq : List AttributionRecord) : Counter String × Counter Nat :=
  seq.foldl aggStep ([], [])

/-- Truncation of a rational toward zero, modelling Python `int()` applied
to the value of `statistics.mean`: `Int.tdiv` is division rounding toward
zero, and a rational's denominator is positive. -/
def ratTrunc (q : ℚ) : ℤ := q.num.tdiv (q.den : ℤ)

/-- The finalized per-file record as built at the bottom of `walk`:
`ageMean` is `statistics.mean(dates.elements())` kept exact, and
`dateMeanOrd` is `int(...)` of it, the ordinal actually emitted in the
`DATE(MEAN)` column. -/
structure FileSummary where
  dateMeanOrd : ℤ
  ageMean : ℚ
  dateMode : Nat
  authorMode : String
  path : String
deriving DecidableEq, Repr

/-- The statistics-finalizing tail of `walk`: skip (`continue`) when
`sum(dates.values()) == 0`, otherwise take `most_common(1)[0][0]` of each
counter and the truncated mean of the date ordinals. -/
def finalize (path : String) (authors : Counter String) (dates : Counter Nat) :
    Option FileSummary :=
  if dates.total = 0 then none
  else
    match authors.mostCommon1, dates.mostCommon1 with
    | some a, some d =>
      some { dateMeanOrd := ratTrunc dates.mean
             ageMean := dates.mean
             dateMode := d.1
             authorMode := a.1
             path := path }
    | _, _ => none

/-! ## The tree walk -/

/-- `os.path.join(parent_dirs, entry.name)` with an initially empty
`parent_dirs`. -/
def pathJoin (parent : String) (name : String) : String :=
  if parent = "" then name else parent ++ "/" ++ name

/-- One entry of a git tree as `walk` classifies it: a subtree
(`GIT_OBJ_TREE`), a submodule (`GIT_OBJ_COMMIT`), a blob (`GIT_OBJ_BLOB`,
carrying its binary-ness and the outcome of the external attribution
source: the blame records, or the error of a blame subprocess that exited
nonzero), or an object of any other kind. -/
inductive Entry where
  | tree (name : String) (children : List Entry)
  | submodule (name : String)
  | blob (name : String) (binary : Bool) (blame : Except String (List AttributionRecord))
  | unknown (name : String)

/-- The walk's observable output: the data rows written so far
(`writer.writerow`) and the diagnostics logged so far (`logging.info`).
The two channels are separate, matching stdout vs the logging stream. -/
structure Output where
  rows : List FileSummary
  diags : List String
deriving DecidableEq, Repr

mutual

/-- `walk` on one tree entry.  Returns the accumulated output and, when an
exception propagates (`CalledProcessError` from a failed blame, or the
`Unknown TreeEntry type` exception), the fatal error message. -/
def walkEntry (pfx : String) (acc : Output) : Entry → Output × Option String
  | .tree n cs => walkList (pathJoin pfx n) acc cs
  | .submodule n =>
    ({ acc with diags := acc.diags ++ ["Ignoring submodule " ++ pathJoin pfx n] }, none)
  | .blob n true _ =>
    ({ acc with diags := acc.diags ++ ["ignoring binary blob " ++ pathJoin pfx n] }, none)
  | .blob _ false (.error e) => (acc, some e)
  | .blob n false (.ok seq) =>
    match finalize (pathJoin pfx n) (aggregate seq).1 (aggregate seq).2 with
    | none =>
      ({ acc with diags := acc.diags ++ ["ignoring empty file " ++ pathJoin pfx n] }, none)
    | some s => ({ acc with rows := acc.rows ++ [s] }, none)
  | .unknown n => (acc, some ("Unknown TreeEntry type " ++ pathJoin pfx n))

/-- `walk`'s `for entry in tree` loop: entries in enumeration order; an
exception from one entry propagates and stops the loop. -/
def walkList (pfx : String) (acc : Output) : List Entry → Output × Option String
  | [] => (acc, none)
  | e :: es =>
    match walkEntry pfx acc e with
    | (acc', none) => walkList pfx acc' es
    | (acc', some f) => (acc', some f)

end

/-! ## The incremental-blame parser of `sunset-blame-hybrid.py` -/

/-- `datetime.datetime.utcfromtimestamp(t).toordinal()` for a nonnegative
epoch timestamp: day 719163 is 1970-01-01. -/
def epochToOrdinal (t : Nat) : Nat := 719163 + t / 86400

/-- One stripped line of `git blame --incremental` output, as the parser's
regex cascade classifies it: a 40-hex-digit hunk header (carrying the
lines-in-hunk count when it fullmatches `[0-9a-f]\x7b40\x7d \d+ \d+ (\d+)`,
`none` otherwise), an `author` line, an `author-time` line, a `filename`
terminator, or anything else (ignored). -/
inductive BlameLine where
  | header (count : Option Nat)
  | author (name : String)
  | authorTime (t : Nat)
  | filename
  | other
deriving DecidableEq, Repr

/-- The parser's mutable state: the three variables that persist across
loop iterations (`lines_in_hunk`, `author`, `date`, each `none` while not
yet assigned — referencing one before assignment is a `NameError`), plus
the two counters. -/
structure ParserState where
  linesInHunk : Option Nat
  author : Option String
  date : Option Nat
  authors : Counter String
  dates : Counter Nat

/-- One iteration of the parser's `for line in p.stdout` loop. -/
def step (s : ParserState) : BlameLine → Except String ParserState
  | .header (some k) => .ok { s with linesInHunk := some k }
  | .header none => .ok s
  | .author a => .ok { s with author := some a }
  | .authorTime t => .ok { s with date := some (epochToOrdinal t) }
  | .filename =>
    match s.author, s.date, s.linesInHunk with
    | some a, some d, some k =>
      .ok { s with authors := s.authors.add a k, dates := s.dates.add d k }
    | _, _, _ => .error "NameError"
  | .other => .ok s

/-- The whole parsing loop over a stream of classified lines. -/
def runLines (ls : List BlameLine) (s : ParserState) : Except String ParserState :=
  match ls with
  | [] => .ok s
  | l :: rest =>
    match step s l with
    | .ok s' => runLines rest s'
    | .error e => .error e

/-- A line that mentions neither the author nor the author-time nor ends a
record: a hunk header or an ignored line. -/
def quiet : BlameLine → Bool
  | .header _ => true
  | .other => true
  | _ => false

/-- The lines-in-hunk value after a run of lines: the count of the most
recent fullmatching hunk header, else the incoming value. -/
def effCount (ls : List BlameLine) (c : Option Nat) : Option Nat :=
  ls.foldl
    (fun cur l => match l with
      | .header (some k) => some k
      | _ => cur)
    c

/-! ## Counter lemmas -/

theorem Counter.total_add {α : Type} [DecidableEq α] (c : Counter α) (k : α) (n : Nat) :
    (c.add k n).total = c.total + n := by
  induction c with
  | nil => simp [Counter.add, Counter.total]
  | cons p rest ih =>
    obtain ⟨k', m⟩ := p
    by_cases h : k' = k
    · simp [Counter.add, h, Counter.total]
      omega
    · simp [Counter.add, h, Counter.total] at *
      omega

theorem Counter.weightedSum_add (c : Counter Nat) (k : Nat) (n : Nat) :
    (c.add k n).weightedSum = c.weightedSum + k * n := by
  induction c with
  | nil => simp [Counter.add, Counter.weightedSum]
  | cons p rest ih =>
    obtain ⟨k', m⟩ := p
    by_cases h : k' = k
    · simp [Counter.add, h, Counter.weightedSum]
      ring
    · simp [Counter.add, h, Counter.weightedSum] at *
      omega

theorem aggregate_totals (seq : List AttributionRecord)
    (a : Counter String) (d : Counter Nat) :
    (seq.foldl aggStep (a, d)).1.total = a.total + totalLineCount seq ∧
    (seq.foldl aggStep (a, d)).2.total = d.total + totalLineCount seq := by
  induction seq generalizing a d with
  | nil => simp [totalLineCount]
  | cons r rest ih =>
    have h := ih (a.add r.author r.line_count) (d.add r.age r.line_count)
    simp only [List.foldl_cons, aggStep] at h ⊢
    rw [h.1, h.2, Counter.total_add, Counter.total_add]
    simp [totalLineCount]
    omega

theorem aggregate_weightedSum (seq : List AttributionRecord)
    (a : Counter String) (d : Counter Nat) :
    (seq.foldl aggStep (a, d)).2.weightedSum
      = d.weightedSum + (List.map (fun r => r.age * r.line_count) seq).sum := by
  induction seq generalizing a d with
  | nil => simp
  | cons r rest ih =>
    have h := ih (a.add r.author r.line_count) (d.add r.age r.line_count)
    simp only [List.foldl_cons, aggStep] at h ⊢
    rw [h, Counter.weightedSum_add]
    simp
    omega

/-- Claim C1: for every non-empty attribution sequence, the aggregation
loop produces counters whose totals both equal the sequence's total line
count (both counters are incremented by the same `line_count` per
record). -/
theorem c1_sum_invariant (seq : List AttributionRecord) (hne : seq ≠ []) :
    (aggregate seq).1.total = totalLineCount seq ∧
    (aggregate seq).2.total = totalLineCount seq ∧
    (aggregate seq).1.total = (aggregate seq).2.total := by
  have h := aggregate_totals seq [] []
  simp only [Counter.total, List.map_nil, List.sum_nil, Nat.zero_add] at h
  exact ⟨h.1, h.2, h.1.trans h.2.symm⟩

/-- Witness for C1 at a concrete two-record sequence. -/
theorem c1_sum_invariant_witness :
    (aggregate [⟨3, 1, "a"⟩, ⟨2, 5, "b"⟩]).1.total = totalLineCount [⟨3, 1, "a"⟩, ⟨2, 5, "b"⟩] ∧
    (aggregate [⟨3, 1, "a"⟩, ⟨2, 5, "b"⟩]).2.total = totalLineCount [⟨3, 1, "a"⟩, ⟨2, 5, "b"⟩] ∧
    (aggregate [⟨3, 1, "a"⟩, ⟨2, 5, "b"⟩]).1.total = (aggregate [⟨3, 1, "a"⟩, ⟨2, 5, "b"⟩]).2.total :=
  c1_sum_invariant [⟨3, 1, "a"⟩, ⟨2, 5, "b"⟩] (by decide)

/-! ## Mode selection -/

theorem foldl_best_spec {α : Type} (ps : List (α × Nat)) (p : α × Nat) :
    (ps.foldl (fun best q => if best.2 < q.2 then q else best) p = p ∨
      ps.foldl (fun best q => if best.2 < q.2 then q else best) p ∈ ps) ∧
    p.2 ≤ (ps.foldl (fun best q => if best.2 < q.2 then q else best) p).2 ∧
    ∀ r ∈ ps, r.2 ≤ (ps.foldl (fun best q => if best.2 < q.2 then q else best) p).2 := by
  induction ps generalizing p with
  | nil => simp
  | cons q qs ih =>
    have h := ih (if p.2 < q.2 then q else p)
    simp only [List.foldl_cons] at *
    refine ⟨?_, ?_, ?_⟩
    · rcases h.1 with h1 | h1
      · rw [h1]
        by_cases hc : p.2 < q.2 <;> simp [hc]
      · right
        exact List.mem_cons_of_mem _ h1
    · refine le_trans ?_ h.2.1
      by_cases hc : p.2 < q.2 <;> simp [hc]
      omega
    · intro r hr
      rcases List.mem_cons.1 hr with rfl | hr
      · refine le_trans ?_ h.2.1
        by_cases hc : p.2 < r.2 <;> simp [hc]
        omega
      · exact h.2.2 r hr

theorem mostCommon1_spec {α : Type} (c : Counter α) (q : α × Nat)
    (h : c.mostCommon1 = some q) : q ∈ c ∧ ∀ r ∈ c, r.2 ≤ q.2 := by
  match c with
  | [] => simp [Counter.mostCommon1] at h
  | p :: ps =>
    simp only [Counter.mostCommon1, Option.some.injEq] at h
    have hs := foldl_best_spec ps p
    subst h
    refine ⟨?_, ?_⟩
    · rcases hs.1 with h1 | h1
      · rw [h1]; exact List.mem_cons_self _ _
      · exact List.mem_cons_of_mem _ h1
    · intro r hr
      rcases List.mem_cons.1 hr with rfl | hr
      · exact hs.2.1
      · exact hs.2.2 r hr

theorem total_pos_ne_nil {α : Type} (c : Counter α) (h : 0 < c.total) : c ≠ [] := by
  intro hnil
  rw [hnil] at h
  simp [Counter.total] at h

theorem mostCommon1_isSome {α : Type} (c : Counter α) (h : c ≠ []) :
    ∃ q, c.mostCommon1 = some q := by
  match c with
  | [] => exact absurd rfl h
  | p :: ps => exact ⟨_, rfl⟩

/-- Claim C5: on a histogram with positive total line count, `finalize`
returns a summary whose author mode and date (age-bucket) mode each carry
an accumulated line count at least as large as every other bucket's. -/
theorem c5_mode_maximal (path : String) (seq : List AttributionRecord)
    (h : 0 < totalLineCount seq) :
    ∃ s, finalize path (aggregate seq).1 (aggregate seq).2 = some s ∧
      (∃ cnt, (s.authorMode, cnt) ∈ (aggregate seq).1 ∧
        ∀ q ∈ (aggregate seq).1, q.2 ≤ cnt) ∧
      (∃ cnt, (s.dateMode, cnt) ∈ (aggregate seq).2 ∧
        ∀ q ∈ (aggregate seq).2, q.2 ≤ cnt) := by
  have ha : 0 < (aggregate seq).1.total := by
    unfold aggregate
    rw [(aggregate_totals seq [] []).1]
    simpa [Counter.total] using h
  have hd : 0 < (aggregate seq).2.total := by
    unfold aggregate
    rw [(aggregate_totals seq [] []).2]
    simpa [Counter.total] using h
  obtain ⟨qa, hqa⟩ := mostCommon1_isSome (aggregate seq).1 (total_pos_ne_nil _ ha)
  obtain ⟨qd, hqd⟩ := mostCommon1_isSome (aggregate seq).2 (total_pos_ne_nil _ hd)
  have sa := mostCommon1_spec _ _ hqa
  have sd := mostCommon1_spec _ _ hqd
  have hfin : finalize path (aggregate seq).1 (aggregate seq).2
      = some ⟨ratTrunc (aggregate seq).2.mean, (aggregate seq).2.mean, qd.1, qa.1, path⟩ := by
    simp only [finalize, hqa, hqd]
    rw [if_neg (by omega)]
  refine ⟨_, hfin, ⟨qa.2, ?_, ?_⟩, ⟨qd.2, ?_, ?_⟩⟩
  · simpa using sa.1
  · exact fun q hq => sa.2 q hq
  · simpa using sd.1
  · exact fun q hq => sd.2 q hq

/-- Witness for C5 at a concrete two-record sequence. -/
theorem c5_mode_maximal_witness :
    ∃ s, finalize "f" (aggregate [⟨6, 1, "a"⟩, ⟨4, 5, "b"⟩]).1
            (aggregate [⟨6, 1, "a"⟩, ⟨4, 5, "b"⟩]).2 = some s ∧
      (∃ cnt, (s.authorMode, cnt) ∈ (aggregate [⟨6, 1, "a"⟩, ⟨4, 5, "b"⟩]).1 ∧
        ∀ q ∈ (aggregate [⟨6, 1, "a"⟩, ⟨4, 5, "b"⟩]).1, q.2 ≤ cnt) ∧
      (∃ cnt, (s.dateMode, cnt) ∈ (aggregate [⟨6, 1, "a"⟩, ⟨4, 5, "b"⟩]).2 ∧
        ∀ q ∈ (aggregate [⟨6, 1, "a"⟩, ⟨4, 5, "b"⟩]).2, q.2 ≤ cnt) :=
  c5_mode_maximal "f" [⟨6, 1, "a"⟩, ⟨4, 5, "b"⟩] (by decide)

/-! ## Mean arithmetic -/

theorem ratTrunc_eq_floor (q : ℚ) (h : 0 ≤ q) : ratTrunc q = ⌊q⌋ := by
  rw [ratTrunc, Rat.floor_def, Int.tdiv_eq_ediv (Rat.num_nonneg.2 h) (Int.natCast_nonneg _)]

theorem mean_nonneg (dates : Counter Nat) : 0 ≤ dates.mean := by
  rw [Counter.mean]
  positivity

/-- Claim C4: the mean age divides exactly, with no truncation before the
division (`mean * total` recovers the weighted sum); and on the scenario
with 6 lines at age 1 by author "a" and 4 lines at age 5 by author "b" the
finalized summary has age mode 1, exact mean 13/5 = 2.6 and author mode
"a" (the emitted ordinal being its truncation 2). -/
theorem c4_exact_mean :
    (∀ dates : Counter Nat, dates.total ≠ 0 →
      dates.mean * (dates.total : ℚ) = (dates.weightedSum : ℚ)) ∧
    finalize "f" (aggregate [⟨6, 1, "a"⟩, ⟨4, 5, "b"⟩]).1
        (aggregate [⟨6, 1, "a"⟩, ⟨4, 5, "b"⟩]).2
      = some ⟨2, 13/5, 1, "a", "f"⟩ := by
  constructor
  · intro dates h
    rw [Counter.mean, div_mul_cancel₀ _ (Nat.cast_ne_zero.2 h)]
  · simp [finalize, aggregate, aggStep, Counter.add, Counter.total, Counter.mostCommon1,
      Counter.mean, Counter.weightedSum, ratTrunc]
    norm_num
    decide

/-- Witness for C4's quantified conjunct at a concrete counter. -/
theorem c4_exact_mean_witness :
    Counter.total [(1, 6), (5, 4)] ≠ 0 ∧
    Counter.mean [(1, 6), (5, 4)] * (Counter.total [(1, 6), (5, 4)] : ℚ)
      = (Counter.weightedSum [(1, 6), (5, 4)] : ℚ) :=
  ⟨by decide, c4_exact_mean.1 [(1, 6), (5, 4)] (by decide)⟩

/-- Claim C10: whenever `finalize` emits a summary, the emitted
`DATE(MEAN)` ordinal is the exact line-weighted mean truncated toward
zero, which (the mean being nonnegative) is its floor: it understates the
exact mean by strictly less than one day. -/
theorem c10_mean_truncation (path : String) (authors : Counter String)
    (dates : Counter Nat) (s : FileSummary)
    (h : finalize path authors dates = some s) :
    s.dateMeanOrd = ⌊s.ageMean⌋ ∧
    (s.dateMeanOrd : ℚ) ≤ s.ageMean ∧ s.ageMean < s.dateMeanOrd + 1 := by
  have hs : s.dateMeanOrd = ratTrunc dates.mean ∧ s.ageMean = dates.mean := by
    rw [finalize] at h
    by_cases h0 : dates.total = 0
    · rw [if_pos h0] at h
      exact absurd h (by simp)
    · rw [if_neg h0] at h
      rcases ha : authors.mostCommon1 with _ | qa <;> rw [ha] at h
      · exact absurd h (by simp)
      · rcases hd : dates.mostCommon1 with _ | qd <;> rw [hd] at h
        · exact absurd h (by simp)
        · simp only [Option.some.injEq] at h
          rw [← h]
          exact ⟨rfl, rfl⟩
  have hfloor : ratTrunc dates.mean = ⌊dates.mean⌋ :=
    ratTrunc_eq_floor _ (mean_nonneg dates)
  rw [hs.1, hs.2, hfloor]
  exact ⟨rfl, Int.floor_le _, Int.lt_floor_add_one _⟩

/-- Witness for C10 at a concrete finalizer input. -/
theorem c10_mean_truncation_witness :
    ∃ s, finalize "f" [("a", 6), ("b", 4)] [(1, 6), (5, 4)] = some s ∧
      (s.dateMeanOrd = ⌊s.ageMean⌋ ∧
        (s.dateMeanOrd : ℚ) ≤ s.ageMean ∧ s.ageMean < s.dateMeanOrd + 1) := by
  refine ⟨finalize "f" [("a", 6), ("b", 4)] [(1, 6), (5, 4)] |>.get (by decide), ?_, ?_⟩
  · simp
  · exact c10_mean_truncation "f" [("a", 6), ("b", 4)] [(1, 6), (5, 4)] _ (by simp)

/-! ## Age-mean bounds -/

/-- The least age value occurring in a sequence (0 for an empty one). -/
def minAge : List AttributionRecord → Nat
  | [] => 0
  | r :: rs => rs.foldl (fun m s => min m s.age) r.age

/-- The greatest age value occurring in a sequence (0 for an empty one). -/
def maxAge : List AttributionRecord → Nat
  | [] => 0
  | r :: rs => rs.foldl (fun m s => max m s.age) r.age

/-- The age mean the program computes for a sequence: the exact mean of
the dates counter that the aggregation loop builds from it. -/
def ageMean (seq : List AttributionRecord) : ℚ := (aggregate seq).2.mean

theorem foldl_min_spec (rs : List AttributionRecord) (m : Nat) :
    rs.foldl (fun m s => min m s.age) m ≤ m ∧
    ∀ r ∈ rs, rs.foldl (fun m s => min m s.age) m ≤ r.age := by
  induction rs generalizing m with
  | nil => simp
  | cons r' rs' ih =>
    have h := ih (min m r'.age)
    simp only [List.foldl_cons] at *
    refine ⟨le_trans h.1 (by omega), ?_⟩
    intro r hr
    rcases List.mem_cons.1 hr with rfl | hr
    · exact le_trans h.1 (by omega)
    · exact h.2 r hr

theorem foldl_max_spec (rs : List AttributionRecord) (m : Nat) :
    m ≤ rs.foldl (fun m s => max m s.age) m ∧
    ∀ r ∈ rs, r.age ≤ rs.foldl (fun m s => max m s.age) m := by
  induction rs generalizing m with
  | nil => simp
  | cons r' rs' ih =>
    have h := ih (max m r'.age)
    simp only [List.foldl_cons] at *
    refine ⟨le_trans (by omega) h.1, ?_⟩
    intro r hr
    rcases List.mem_cons.1 hr with rfl | hr
    · exact le_trans (by omega) h.1
    · exact h.2 r hr

theorem minAge_le (seq : List AttributionRecord) (r : AttributionRecord)
    (hr : r ∈ seq) : minAge seq ≤ r.age := by
  match seq with
  | [] => exact absurd hr (List.not_mem_nil r)
  | s :: rest =>
    rcases List.mem_cons.1 hr with rfl | hr
    · exact (foldl_min_spec rest r.age).1
    · exact (foldl_min_spec rest s.age).2 r hr

theorem le_maxAge (seq : List AttributionRecord) (r : AttributionRecord)
    (hr : r ∈ seq) : r.age ≤ maxAge seq := by
  match seq with
  | [] => exact absurd hr (List.not_mem_nil r)
  | s :: rest =>
    rcases List.mem_cons.1 hr with rfl | hr
    · exact (foldl_max_spec rest r.age).1
    · exact (foldl_max_spec rest s.age).2 r hr

theorem totalLineCount_pos (seq : List AttributionRecord) (hne : seq ≠ [])
    (hpos : ∀ r ∈ seq, 0 < r.line_count) : 0 < totalLineCount seq := by
  match seq with
  | [] => exact absurd rfl hne
  | r :: rest =>
    have h := hpos r (List.mem_cons_self r rest)
    simp [totalLineCount]
    omega

/-- Claim C8: for a non-empty attribution sequence whose records carry
positive line counts (the `AttributionRecord` invariant), the computed
age mean lies between the least and the greatest age occurring in the
sequence. -/
theorem c8_mean_bounds (seq : List AttributionRecord) (hne : seq ≠ [])
    (hpos : ∀ r ∈ seq, 0 < r.line_count) :
    (minAge seq : ℚ) ≤ ageMean seq ∧ ageMean seq ≤ (maxAge seq : ℚ) := by
  have hT : 0 < totalLineCount seq := totalLineCount_pos seq hne hpos
  have hW : (aggregate seq).2.weightedSum
      = (List.map (fun r => r.age * r.line_count) seq).sum := by
    have h := aggregate_weightedSum seq [] []
    simpa [Counter.weightedSum] using h
  have hTot : (aggregate seq).2.total = totalLineCount seq := by
    have h := (aggregate_totals seq [] []).2
    simpa [Counter.total] using h
  have hlo : minAge seq * totalLineCount seq
      ≤ (List.map (fun r => r.age * r.line_count) seq).sum := by
    calc minAge seq * totalLineCount seq
        = (List.map (fun r => minAge seq * r.line_count) seq).sum := by
          rw [totalLineCount, List.sum_map_mul_left]
      _ ≤ (List.map (fun r => r.age * r.line_count) seq).sum := by
          refine List.sum_le_sum ?_
          intro r hr
          exact Nat.mul_le_mul_right _ (minAge_le seq r hr)
  have hhi : (List.map (fun r => r.age * r.line_count) seq).sum
      ≤ maxAge seq * totalLineCount seq := by
    calc (List.map (fun r => r.age * r.line_count) seq).sum
        ≤ (List.map (fun r => maxAge seq * r.line_count) seq).sum := by
          refine List.sum_le_sum ?_
          intro r hr
          exact Nat.mul_le_mul_right _ (le_maxAge seq r hr)
      _ = maxAge seq * totalLineCount seq := by
          rw [totalLineCount, List.sum_map_mul_left]
  have hTQ : (0 : ℚ) < ((aggregate seq).2.total : ℚ) := by
    rw [hTot]
    exact_mod_cast hT
  constructor
  · rw [ageMean, Counter.mean, le_div_iff₀ hTQ]
    rw [hW, hTot]
    exact_mod_cast hlo
  · rw [ageMean, Counter.mean, div_le_iff₀ hTQ]
    rw [hW, hTot]
    exact_mod_cast hhi

/-- Witness for C8 at a concrete two-record sequence. -/
theorem c8_mean_bounds_witness :
    (minAge [⟨6, 1, "a"⟩, ⟨4, 5, "b"⟩] : ℚ) ≤ ageMean [⟨6, 1, "a"⟩, ⟨4, 5, "b"⟩] ∧
    ageMean [⟨6, 1, "a"⟩, ⟨4, 5, "b"⟩] ≤ (maxAge [⟨6, 1, "a"⟩, ⟨4, 5, "b"⟩] : ℚ) :=
  c8_mean_bounds [⟨6, 1, "a"⟩, ⟨4, 5, "b"⟩] (by decide) (by decide)

/-! ## Walk behavior -/

theorem walkList_append_fatal (pfx : String) (acc acc' : Output)
    (es1 es2 : List Entry) (entry : Entry) (fm : String)
    (h : walkList pfx acc es1 = (acc', none))
    (hf : ∀ a : Output, walkEntry pfx a entry = (a, some fm)) :
    walkList pfx acc (es1 ++ entry :: es2) = (acc', some fm) := by
  induction es1 generalizing acc with
  | nil =>
    have h1 : acc = acc' := congrArg Prod.fst h
    subst h1
    simp [walkList, hf]
  | cons e es ih =>
    simp only [List.cons_append, walkList] at h ⊢
    rcases hz : walkEntry pfx acc e with ⟨a1, of⟩
    rw [hz] at h
    cases of with
    | none => exact ih a1 h
    | some f => simp at h

/-- Claim C2 as stated is false of the code: when the blame subprocess
exits nonzero for one file, `walk` raises `CalledProcessError`, which
aborts the whole run; the sibling file after the failing one is never
processed and produces no row. -/
theorem c2_counterexample :
    (walkList "" ⟨[], []⟩
        [.blob "bad" false (.error "CalledProcessError"),
         .blob "good" false (.ok [⟨3, 1, "x"⟩])]).2 = some "CalledProcessError" ∧
    (walkList "" ⟨[], []⟩
        [.blob "bad" false (.error "CalledProcessError"),
         .blob "good" false (.ok [⟨3, 1, "x"⟩])]).1.rows = [] := by
  decide

/-- Claim C2 amended: an attribution-source failure for one path is fatal
to the whole walk, not file-scoped: after any cleanly processed leading
siblings, the failing blob ends the run with the propagated error, keeps
the rows already emitted, and the entries after it are never visited. -/
theorem c2_blame_failure_aborts (pfx : String) (acc acc' : Output)
    (es1 es2 : List Entry) (n e : String)
    (h : walkList pfx acc es1 = (acc', none)) :
    walkList pfx acc (es1 ++ .blob n false (.error e) :: es2) = (acc', some e) :=
  walkList_append_fatal pfx acc acc' es1 es2 (.blob n false (.error e)) e h
    (fun _ => rfl)

/-- Witness for the amended C2 at a concrete tree. -/
theorem c2_blame_failure_aborts_witness :
    walkList "" ⟨[], []⟩
        [.submodule "s", .blob "bad" false (.error "CalledProcessError"), .submodule "t"]
      = (⟨[], ["Ignoring submodule s"]⟩, some "CalledProcessError") :=
  c2_blame_failure_aborts "" ⟨[], []⟩ ⟨[], ["Ignoring submodule s"]⟩
    [.submodule "s"] [.submodule "t"] "bad" "CalledProcessError" (by decide)

/-- Claim C6: an enumerated entry of unknown kind is fatal: the walk stops
with the `Unknown TreeEntry type` error, emits no row for that entry, and
the rows already emitted for earlier files remain in the output. -/
theorem c6_unknown_kind_fatal (pfx : String) (acc acc' : Output)
    (es1 es2 : List Entry) (n : String)
    (h : walkList pfx acc es1 = (acc', none)) :
    walkList pfx acc (es1 ++ .unknown n :: es2)
      = (acc', some ("Unknown TreeEntry type " ++ pathJoin pfx n)) :=
  walkList_append_fatal pfx acc acc' es1 es2 (.unknown n)
    ("Unknown TreeEntry type " ++ pathJoin pfx n) h (fun _ => rfl)

/-- Witness for C6 at a concrete tree. -/
theorem c6_unknown_kind_fatal_witness :
    walkList "" ⟨[], []⟩ [.submodule "s", .unknown "weird", .submodule "t"]
      = (⟨[], ["Ignoring submodule s"]⟩,
         some ("Unknown TreeEntry type " ++ pathJoin "" "weird")) :=
  c6_unknown_kind_fatal "" ⟨[], []⟩ ⟨[], ["Ignoring submodule s"]⟩
    [.submodule "s"] [.submodule "t"] "weird" (by decide)

/-- Claim C7: submodule entries and binary blobs never reach the
aggregation: each contributes no data row and exactly one diagnostic, and
the walk then continues with the remaining sibling entries. -/
theorem c7_skip_entries (pfx : String) (acc : Output) (n : String)
    (es : List Entry) (blame : Except String (List AttributionRecord)) :
    (walkEntry pfx acc (.submodule n)).1.rows = acc.rows ∧
    (walkEntry pfx acc (.submodule n)).1.diags
      = acc.diags ++ ["Ignoring submodule " ++ pathJoin pfx n] ∧
    walkList pfx acc (.submodule n :: es)
      = walkList pfx
          { acc with diags := acc.diags ++ ["Ignoring submodule " ++ pathJoin pfx n] } es ∧
    (walkEntry pfx acc (.blob n true blame)).1.rows = acc.rows ∧
    (walkEntry pfx acc (.blob n true blame)).1.diags
      = acc.diags ++ ["ignoring binary blob " ++ pathJoin pfx n] ∧
    walkList pfx acc (.blob n true blame :: es)
      = walkList pfx
          { acc with diags := acc.diags ++ ["ignoring binary blob " ++ pathJoin pfx n] } es :=
  ⟨rfl, rfl, rfl, rfl, rfl, rfl⟩

/-- Claim C3: an attribution sequence whose line counts sum to zero
yields no row: the empty sequence aggregates to empty counters, the
finalizer returns no summary, and the walk skips the file with one
diagnostic and continues with the siblings. -/
theorem c3_empty_skipped (p pfx : String) (acc : Output) (n : String)
    (es : List Entry) (seq : List AttributionRecord)
    (h : totalLineCount seq = 0) :
    aggregate [] = ([], []) ∧
    finalize p (aggregate seq).1 (aggregate seq).2 = none ∧
    walkList pfx acc (.blob n false (.ok seq) :: es)
      = walkList pfx
          { acc with diags := acc.diags ++ ["ignoring empty file " ++ pathJoin pfx n] } es := by
  have hfin : ∀ q : String, finalize q (aggregate seq).1 (aggregate seq).2 = none := by
    intro q
    rw [finalize, if_pos]
    have ht := (aggregate_totals seq [] []).2
    unfold aggregate
    rw [ht]
    simpa [Counter.total] using h
  refine ⟨rfl, hfin p, ?_⟩
  simp only [walkList, walkEntry, hfin (pathJoin pfx n)]

/-- Witness for C3 at the empty sequence. -/
theorem c3_empty_skipped_witness :
    aggregate [] = ([], []) ∧
    finalize "f" (aggregate []).1 (aggregate []).2 = none ∧
    walkList "" ⟨[], []⟩ [.blob "f" false (.ok []), .submodule "t"]
      = walkList ""
          { rows := ([] : List FileSummary),
            diags := ([] : List String) ++ ["ignoring empty file " ++ pathJoin "" "f"] }
          [.submodule "t"] :=
  c3_empty_skipped "f" "" ⟨[], []⟩ "f" [.submodule "t"] [] (by decide)

/-! ## Parser state persistence -/

theorem runLines_append (l1 l2 : List BlameLine) (s : ParserState) :
    runLines (l1 ++ l2) s
      = match runLines l1 s with
        | .ok s' => runLines l2 s'
        | .error e => .error e := by
  induction l1 generalizing s with
  | nil => simp [runLines]
  | cons l rest ih =>
    simp only [List.cons_append, runLines]
    cases hs : step s l with
    | ok s' => exact ih s'
    | error e => rfl

theorem runLines_quiet (ls : List BlameLine) (s : ParserState)
    (h : ∀ l ∈ ls, quiet l = true) :
    runLines ls s = .ok { s with linesInHunk := effCount ls s.linesInHunk } := by
  induction ls generalizing s with
  | nil => rfl
  | cons l rest ih =>
    have hl := h l (List.mem_cons_self l rest)
    have hrest : ∀ x ∈ rest, quiet x = true := fun x hx => h x (List.mem_cons_of_mem l hx)
    cases l with
    | header c =>
      cases c with
      | some k =>
        simp only [runLines, step]
        rw [ih _ hrest]
        simp [effCount]
      | none =>
        simp only [runLines, step]
        rw [ih _ hrest]
        simp [effCount]
    | author a => simp [quiet] at hl
    | authorTime t => simp [quiet] at hl
    | filename => simp [quiet] at hl
    | other =>
      simp only [runLines, step]
      rw [ih _ hrest]
      simp [effCount]

/-- Claim C9: the parser's `author`, `date` and `lines_in_hunk` variables
persist across records: a record closed by a `filename` line that was
preceded (since the previous terminator) by no `author` or `author-time`
line folds its lines under the author and date left over from earlier in
the stream, with the count of the most recent fullmatching hunk header
(be it inside this record or carried over as well). -/
theorem c9_parser_state_persists (seg : List BlameLine) (s : ParserState)
    (a : String) (d k : Nat)
    (hq : ∀ l ∈ seg, quiet l = true)
    (ha : s.author = some a) (hd : s.date = some d)
    (hk : effCount seg s.linesInHunk = some k) :
    runLines (seg ++ [.filename]) s
      = .ok { s with linesInHunk := some k,
                     authors := s.authors.add a k,
                     dates := s.dates.add d k } := by
  rw [runLines_append, runLines_quiet seg s hq, hk]
  simp only [runLines, step, ha, hd]

/-- Witness for C9: a record consisting of a bare hunk header and an
ignored line, closed by `filename`, folds two lines under the carried-over
author and date. -/
theorem c9_parser_state_persists_witness :
    runLines ([.header (some 2), .other] ++ [.filename])
        ⟨some 5, some "alice", some 700000, [], []⟩
      = .ok ⟨some 2, some "alice", some 700000, [("alice", 2)], [(700000, 2)]⟩ :=
  c9_parser_state_persists [.header (some 2), .other]
    ⟨some 5, some "alice", some 700000, [], []⟩ "alice" 700000 2
    (by decide) rfl rfl (by decide)
